import Mathlib

/-!
Verification of the CSV row flattener of `src/server.go`.

The subject of the claims is the function `buildNestedDict` (server.go,
lines 440-461) together with the per-row loop of `validateBeneficiaries`
(lines 244-248) that folds it over one CSV record.  We give a shallow
embedding of that code:

* Go's `map[string]interface{}` payload is modelled as an association
  list `Dict := List (String × JVal)`, where `JVal` is the tagged union
  of the three kinds of values the code ever stores: a string leaf, a
  list of strings (only for the two reserved headers), or a nested map.
* `getKey` / `setKey` model Go map lookup and assignment.
* `splitChar` models `strings.Split` for a single-character separator
  (the code only splits on "." and ","): split around every occurrence
  of the separator, the empty string yielding the one-element list [""].
* `nestLoop` models the `for i, part := range parts` loop of
  `buildNestedDict`; a failed type assertion
  `current[part].(map[string]interface{})` (a Go panic) is modelled as
  `none`.
* `buildNestedDict` models the whole function, including the reserved
  short-circuit for the exact header strings "payment_methods" and
  "transfer_methods".
* `flattenRowAux` / `flattenRow` model the loop
  `for i, value := range row { buildNestedDict(payload, headers[i], value) }`
  started on a fresh empty map; an out-of-range index `headers[i]`
  (row longer than the header list) is modelled as `none`.

`lookupPath`, `isObj`, `isPreB`, `strictPreB` and `firstSeg` are
specification-side observers used to state the claims; they are not part
of the Go code.
-/

/-- Models Go `strings.Split` (single-character separator) on an exploded
character list; `acc` is the current chunk, in reverse. -/
def splitCharAux (sep : Char) : List Char → List Char → List String
  | [], acc => [String.mk acc.reverse]
  | c :: cs, acc =>
    if c = sep then String.mk acc.reverse :: splitCharAux sep cs []
    else splitCharAux sep cs (c :: acc)

/-- Models Go `strings.Split(s, sep)` for a one-character separator `sep`:
splits around every occurrence, `""` yields `[""]`. -/
def splitChar (sep : Char) (s : String) : List String :=
  splitCharAux sep s.toList []

/-- The dotted segments of a header path: `strings.Split(path, ".")`. -/
def pathParts (path : String) : List String :=
  splitChar '.' path

/-- The values a payload map may hold: string leaves, string lists for the
two reserved headers, and nested maps (`map[string]interface{}`). -/
inductive JVal where
  | str (s : String) : JVal
  | list (xs : List String) : JVal
  | obj (entries : List (String × JVal)) : JVal

/-- A Go `map[string]interface{}`, modelled as an association list. -/
abbrev Dict := List (String × JVal)

/-- Go map lookup `m[k]` (comma-ok form): `none` when the key is absent. -/
def getKey : Dict → String → Option JVal
  | [], _ => none
  | (k, v) :: rest, key => if k = key then some v else getKey rest key

/-- Go map assignment `m[k] = v`: replaces an existing binding, otherwise
adds one. -/
def setKey : Dict → String → JVal → Dict
  | [], key, v => [(key, v)]
  | (k, w) :: rest, key, v =>
    if k = key then (key, v) :: rest else (k, w) :: setKey rest key v

/-- The reserved-header test of server.go line 444:
`path == "payment_methods" || path == "transfer_methods"`. -/
def isReserved (path : String) : Bool :=
  path == "payment_methods" || path == "transfer_methods"

/-- The `for i, part := range parts` loop of `buildNestedDict`
(server.go lines 449-460).  At the last segment the value is assigned
only when non-empty; at an earlier segment an absent key is bound to a
fresh empty map and the walk descends; a present non-map value makes the
type assertion fail, modelled as `none`. -/
def nestLoop : Dict → List String → String → Option Dict
  | d, [], _ => some d
  | d, [p], value =>
    some (if value = "" then d else setKey d p (JVal.str value))
  | d, p :: q :: rest, value =>
    match getKey d p with
    | none =>
      Option.map (fun c2 => setKey d p (JVal.obj c2)) (nestLoop [] (q :: rest) value)
    | some (JVal.obj c) =>
      Option.map (fun c2 => setKey d p (JVal.obj c2)) (nestLoop c (q :: rest) value)
    | some (JVal.str _) => none
    | some (JVal.list _) => none

/-- `buildNestedDict` (server.go lines 440-461).  The reserved headers
short-circuit to a comma-split list at the top level; every other header
goes through the nesting loop. -/
def buildNestedDict (dict : Dict) (path value : String) : Option Dict :=
  let parts := pathParts path
  if isReserved path then
    some (setKey dict path (JVal.list (splitChar ',' value)))
  else
    nestLoop dict parts value

/-- The row loop of `validateBeneficiaries` (server.go lines 244-248):
`for i, value := range row { buildNestedDict(payload, headers[i], value) }`.
A row longer than the header list hits an out-of-range index, modelled
as `none`. -/
def flattenRowAux : Dict → List String → List String → Option Dict
  | d, _, [] => some d
  | _, [], _ :: _ => none
  | d, h :: hs, v :: vs =>
    match buildNestedDict d h v with
    | none => none
    | some d2 => flattenRowAux d2 hs vs

/-- Flattening one CSV record: the row loop started on the fresh empty map
`payload := make(map[string]interface{})`. -/
def flattenRow (headers row : List String) : Option Dict :=
  flattenRowAux [] headers row

/-- Observer: follow a non-empty segment list through nested maps. -/
def lookupPath : Dict → List String → Option JVal
  | _, [] => none
  | d, [p] => getKey d p
  | d, p :: q :: rest =>
    match getKey d p with
    | some (JVal.obj c) => lookupPath c (q :: rest)
    | _ => none

/-- Observer: is this value a nested map? -/
def isObj : JVal → Bool
  | JVal.obj _ => true
  | _ => false

/-- Observer: is `p` an initial run of `q` (segment lists)? -/
def isPreB : List String → List String → Bool
  | [], _ => true
  | _ :: _, [] => false
  | a :: as, b :: bs => if a = b then isPreB as bs else false

/-- Observer: is `p` a proper initial run of `q`? -/
def strictPreB (p q : List String) : Bool :=
  isPreB p q && decide (p.length < q.length)

/-- The first dotted segment of a header path (always exists, since
splitting never yields an empty list). -/
def firstSeg (path : String) : String :=
  match pathParts path with
  | [] => ""
  | s :: _ => s

example : flattenRow ["a.b"] [""] = some [("a", JVal.obj [])] := rfl
example : flattenRow ["a.b", "a.c"] ["x", "y"] =
    some [("a", JVal.obj [("b", JVal.str "x"), ("c", JVal.str "y")])] := rfl
example : flattenRow ["payment_methods"] ["bank,card"] =
    some [("payment_methods", JVal.list ["bank", "card"])] := rfl
example : flattenRow ["transfer_methods"] [""] =
    some [("transfer_methods", JVal.list [""])] := rfl
example : flattenRow ["a.b", "a.b"] ["x", "y"] =
    some [("a", JVal.obj [("b", JVal.str "y")])] := rfl
example : flattenRow ["payment_methods", "payment_methods.x"] ["a", "b"] = none := rfl
example : flattenRow ["a.payment_methods"] ["x,y"] =
    some [("a", JVal.obj [("payment_methods", JVal.str "x,y")])] := rfl
example : pathParts "a.b" = ["a", "b"] := rfl
example : pathParts "" = [""] := rfl
example : pathParts "payment_methods" = ["payment_methods"] := rfl

/-! ### Basic lemmas about the map model and the path observers -/

theorem getKey_setKey_self (d : Dict) (k : String) (v : JVal) :
    getKey (setKey d k v) k = some v := by
  induction d with
  | nil => simp [setKey, getKey]
  | cons hd tl ih =>
    obtain ⟨k1, v1⟩ := hd
    by_cases h : k1 = k
    · simp [setKey, getKey, h]
    · simp [setKey, getKey, h, ih]

theorem getKey_setKey_ne (d : Dict) (k k2 : String) (v : JVal) (h : k2 ≠ k) :
    getKey (setKey d k v) k2 = getKey d k2 := by
  have h2 : k ≠ k2 := Ne.symm h
  induction d with
  | nil => simp [setKey, getKey, h2]
  | cons hd tl ih =>
    obtain ⟨k1, v1⟩ := hd
    by_cases h1 : k1 = k
    · subst h1
      simp [setKey, getKey, h2]
    · simp only [setKey, if_neg h1]
      by_cases h3 : k1 = k2
      · simp [getKey, h3]
      · simp [getKey, h3, ih]

theorem setKey_setKey (d : Dict) (k : String) (a b : JVal) :
    setKey (setKey d k a) k b = setKey d k b := by
  induction d with
  | nil => simp [setKey]
  | cons hd tl ih =>
    obtain ⟨k1, v1⟩ := hd
    by_cases h : k1 = k
    · simp [setKey, h]
    · simp [setKey, h, ih]

theorem lookupPath_nil_dict (r : List String) : lookupPath ([] : Dict) r = none := by
  match r with
  | [] => rfl
  | [p] => rfl
  | p :: q :: rest => simp [lookupPath, getKey]

theorem lookupPath_cons_obj (d : Dict) (p : String) (c : Dict) (r : List String)
    (hg : getKey d p = some (JVal.obj c)) (hr : r ≠ []) :
    lookupPath d (p :: r) = lookupPath c r := by
  match r with
  | [] => exact absurd rfl hr
  | q :: rest => simp [lookupPath, hg]

theorem lookupPath_cons_none (d : Dict) (p : String) (r : List String)
    (hg : getKey d p = none) (hr : r ≠ []) :
    lookupPath d (p :: r) = none := by
  match r with
  | [] => exact absurd rfl hr
  | q :: rest => simp [lookupPath, hg]

theorem lookupPath_cons_nonobj (d : Dict) (p : String) (x : JVal) (r : List String)
    (hg : getKey d p = some x) (hx : isObj x = false) (hr : r ≠ []) :
    lookupPath d (p :: r) = none := by
  match r with
  | [] => exact absurd rfl hr
  | q :: rest =>
    cases x with
    | str s => simp [lookupPath, hg]
    | list xs => simp [lookupPath, hg]
    | obj c => simp [isObj] at hx

theorem isPreB_cons_iff (a p : String) (as rest : List String) :
    isPreB (a :: as) (p :: rest) = true ↔ (a = p ∧ isPreB as rest = true) := by
  by_cases h : a = p
  · subst h; simp [isPreB]
  · simp [isPreB, h]

theorem isPreB_refl (l : List String) : isPreB l l = true := by
  induction l with
  | nil => rfl
  | cons a as ih => simp [isPreB, ih]

theorem isPreB_length {a b : List String} (h : isPreB a b = true) :
    a.length ≤ b.length := by
  induction a generalizing b with
  | nil => simp
  | cons x xs ih =>
    match b with
    | [] => simp [isPreB] at h
    | y :: ys =>
      rcases (isPreB_cons_iff x y xs ys).mp h with ⟨_, h2⟩
      have := ih h2
      simp only [List.length_cons]
      omega

theorem isPreB_trans {a b c : List String} (h1 : isPreB a b = true)
    (h2 : isPreB b c = true) : isPreB a c = true := by
  induction a generalizing b c with
  | nil => rfl
  | cons x xs ih =>
    match b with
    | [] => simp [isPreB] at h1
    | y :: ys =>
      rcases (isPreB_cons_iff x y xs ys).mp h1 with ⟨hxy, h1t⟩
      match c with
      | [] => simp [isPreB] at h2
      | z :: zs =>
        rcases (isPreB_cons_iff y z ys zs).mp h2 with ⟨hyz, h2t⟩
        exact (isPreB_cons_iff x z xs zs).mpr ⟨hxy.trans hyz, ih h1t h2t⟩

theorem strictPreB_cons_iff (a p : String) (as rest : List String) :
    strictPreB (a :: as) (p :: rest) = true ↔ (a = p ∧ strictPreB as rest = true) := by
  by_cases h : a = p
  · subst h
    simp only [strictPreB, Bool.and_eq_true, decide_eq_true_eq, List.length_cons,
      isPreB_cons_iff, eq_self_iff_true, true_and]
    constructor
    · rintro ⟨h1, h2⟩; exact ⟨h1, by omega⟩
    · rintro ⟨h1, h2⟩; exact ⟨h1, by omega⟩
  · simp [strictPreB, isPreB, h]

theorem strictPreB_singleton (q : List String) (p : String) (hq : q ≠ []) :
    strictPreB q [p] = false := by
  match q with
  | [] => exact absurd rfl hq
  | a :: as =>
    have h1 : ¬ ((a :: as).length < ([p] : List String).length) := by
      simp only [List.length_cons, List.length_nil]
      omega
    simp [strictPreB, h1]

theorem isPreB_strictPreB_trans {a b c : List String} (h1 : isPreB a b = true)
    (h2 : strictPreB b c = true) : strictPreB a c = true := by
  simp only [strictPreB, Bool.and_eq_true, decide_eq_true_eq] at h2 ⊢
  exact ⟨isPreB_trans h1 h2.1, lt_of_le_of_lt (isPreB_length h1) h2.2⟩

theorem strictPreB_isPreB {a b : List String} (h : strictPreB a b = true) :
    isPreB a b = true := by
  simp only [strictPreB, Bool.and_eq_true] at h
  exact h.1

theorem strictPreB_cons_self (a : String) (as bs : List String) :
    strictPreB (a :: as) (a :: bs) = strictPreB as bs := by
  by_cases h : strictPreB as bs = true
  · rw [h]
    exact (strictPreB_cons_iff a a as bs).mpr ⟨rfl, h⟩
  · simp only [Bool.not_eq_true] at h
    rw [h]
    by_contra hc
    simp only [Bool.not_eq_false] at hc
    have := ((strictPreB_cons_iff a a as bs).mp hc).2
    rw [h] at this
    cases this

theorem strictPreB_nil_cons (a : String) (as : List String) :
    strictPreB [] (a :: as) = true := by
  simp [strictPreB, isPreB]

/-! ### Inversion and single-step lemmas for the nesting loop -/

theorem optionMap_eq_some {α β : Type} {f : α → β} {o : Option α} {b : β}
    (h : Option.map f o = some b) : ∃ a, o = some a ∧ b = f a := by
  cases o with
  | none => simp at h
  | some a =>
    refine ⟨a, rfl, ?_⟩
    simpa using h.symm

/-- Shape of a successful walk step at a non-final segment: the child map
is walked and reinserted; the key was either absent (fresh empty child)
or already a map. -/
theorem nestLoop_inv {d : Dict} {p q0 : String} {rest : List String} {v : String}
    {d2 : Dict} (h : nestLoop d (p :: q0 :: rest) v = some d2) :
    ∃ c c2, nestLoop c (q0 :: rest) v = some c2 ∧ d2 = setKey d p (JVal.obj c2) ∧
      ((getKey d p = none ∧ c = []) ∨ getKey d p = some (JVal.obj c)) := by
  cases hg : getKey d p with
  | none =>
    simp only [nestLoop, hg] at h
    obtain ⟨c2, hc2, hb⟩ := optionMap_eq_some h
    exact ⟨[], c2, hc2, hb, Or.inl ⟨rfl, rfl⟩⟩
  | some jv =>
    cases jv with
    | str s => simp [nestLoop, hg] at h
    | list xs => simp [nestLoop, hg] at h
    | obj c =>
      simp only [nestLoop, hg] at h
      obtain ⟨c2, hc2, hb⟩ := optionMap_eq_some h
      exact ⟨c, c2, hc2, hb, Or.inr rfl⟩

/-- A walk on a dict whose relevant bindings never hit a non-map value
succeeds. -/
theorem nestLoop_total (parts : List String) (d : Dict) (v : String)
    (hb : ∀ q x, lookupPath d q = some x → isObj x = false →
      strictPreB q parts = false) :
    ∃ d2, nestLoop d parts v = some d2 := by
  induction parts generalizing d with
  | nil => exact ⟨d, rfl⟩
  | cons p tail ih =>
    match tail with
    | [] => exact ⟨_, rfl⟩
    | q0 :: rest =>
      cases hg : getKey d p with
      | none =>
        have hrec : ∀ q x, lookupPath ([] : Dict) q = some x → isObj x = false →
            strictPreB q (q0 :: rest) = false := by
          intro q x hq
          rw [lookupPath_nil_dict] at hq
          exact absurd hq (by simp)
        obtain ⟨c2, hc2⟩ := ih [] hrec
        exact ⟨setKey d p (JVal.obj c2), by simp [nestLoop, hg, hc2]⟩
      | some jv =>
        cases jv with
        | obj c =>
          have hrec : ∀ q x, lookupPath c q = some x → isObj x = false →
              strictPreB q (q0 :: rest) = false := by
            intro q x hq hx
            cases q with
            | nil => simp [lookupPath] at hq
            | cons y ys =>
              have hstep : lookupPath d (p :: y :: ys) = some x := by
                rw [lookupPath_cons_obj d p c (y :: ys) hg (by simp)]
                exact hq
              have hres := hb (p :: y :: ys) x hstep hx
              rw [strictPreB_cons_self] at hres
              exact hres
          obtain ⟨c2, hc2⟩ := ih c hrec
          exact ⟨setKey d p (JVal.obj c2), by simp [nestLoop, hg, hc2]⟩
        | str s =>
          have hl : lookupPath d [p] = some (JVal.str s) := hg
          have hres := hb [p] (JVal.str s) hl (by simp [isObj])
          rw [strictPreB_cons_self, strictPreB_nil_cons] at hres
          cases hres
        | list xs =>
          have hl : lookupPath d [p] = some (JVal.list xs) := hg
          have hres := hb [p] (JVal.list xs) hl (by simp [isObj])
          rw [strictPreB_cons_self, strictPreB_nil_cons] at hres
          cases hres

theorem isPreB_cons_self (a : String) (as bs : List String) :
    isPreB (a :: as) (a :: bs) = isPreB as bs := by
  simp [isPreB]

theorem lookupPath_setKey_ne (d : Dict) (p k : String) (w : JVal)
    (rs : List String) (h : k ≠ p) :
    lookupPath (setKey d p w) (k :: rs) = lookupPath d (k :: rs) := by
  cases rs with
  | nil =>
    simp only [lookupPath]
    exact getKey_setKey_ne d p k w h
  | cons y ys =>
    simp only [lookupPath]
    rw [getKey_setKey_ne d p k w h]

/-- A successful walk with a non-empty value leaves the value as a string
leaf at the full path. -/
theorem nestLoop_self {parts : List String} {d d2 : Dict} {v : String}
    (h : nestLoop d parts v = some d2) (hv : v ≠ "") (hp : parts ≠ []) :
    lookupPath d2 parts = some (JVal.str v) := by
  induction parts generalizing d d2 with
  | nil => exact absurd rfl hp
  | cons p tail ih =>
    match tail with
    | [] =>
      simp only [nestLoop, if_neg hv, Option.some_inj] at h
      subst h
      simp only [lookupPath]
      exact getKey_setKey_self d p (JVal.str v)
    | q0 :: rest =>
      obtain ⟨c, c2, hrec, hd2, _⟩ := nestLoop_inv h
      subst hd2
      rw [lookupPath_cons_obj _ p c2 (q0 :: rest) (getKey_setKey_self d p _) (by simp)]
      exact ih hrec (by simp)

/-- A walk from the empty map with the empty value leaves the full path
unbound. -/
theorem nestLoop_self_empty {parts : List String} {d2 : Dict}
    (h : nestLoop [] parts "" = some d2) (hp : parts ≠ []) :
    lookupPath d2 parts = none := by
  induction parts generalizing d2 with
  | nil => exact absurd rfl hp
  | cons p tail ih =>
    match tail with
    | [] =>
      simp only [nestLoop, if_pos rfl, Option.some_inj] at h
      subst h
      simp [lookupPath, getKey]
    | q0 :: rest =>
      obtain ⟨c, c2, hrec, hd2, hdisj⟩ := nestLoop_inv h
      have hc : c = [] := by
        rcases hdisj with ⟨_, hc⟩ | hobj
        · exact hc
        · simp [getKey] at hobj
      subst hc
      subst hd2
      rw [lookupPath_cons_obj _ p c2 (q0 :: rest) (getKey_setKey_self [] p _) (by simp)]
      exact ih hrec (by simp)

/-- After a successful walk, every proper non-empty initial run of the
path is bound to a nested map. -/
theorem nestLoop_mid {parts : List String} {d d2 : Dict} {v : String}
    (h : nestLoop d parts v = some d2) :
    ∀ q, q ≠ [] → strictPreB q parts = true →
      ∃ c, lookupPath d2 q = some (JVal.obj c) := by
  induction parts generalizing d d2 with
  | nil =>
    intro q hq hs
    simp [strictPreB] at hs
  | cons p tail ih =>
    match tail with
    | [] =>
      intro q hq hs
      rw [strictPreB_singleton q p hq] at hs
      cases hs
    | q0 :: rest =>
      intro q hq hs
      obtain ⟨c, c2, hrec, hd2, _⟩ := nestLoop_inv h
      subst hd2
      match q with
      | y :: ys =>
        obtain ⟨hy, hys⟩ := (strictPreB_cons_iff y p ys (q0 :: rest)).mp hs
        subst hy
        match ys with
        | [] =>
          exact ⟨c2, getKey_setKey_self d y _⟩
        | z :: zs =>
          rw [lookupPath_cons_obj _ y c2 (z :: zs) (getKey_setKey_self d y _) (by simp)]
          exact ih hrec (z :: zs) (by simp) hys

/-- A successful walk keeps a non-map binding at any path the walked path
does not properly extend into (the binding at the walked path itself may
be overwritten, but only by another non-map value). -/
theorem nestLoop_keep_leaf {parts : List String} {d d2 : Dict} {v : String}
    (h : nestLoop d parts v = some d2) :
    ∀ r x, lookupPath d r = some x → isObj x = false →
      strictPreB parts r = false →
      ∃ y, lookupPath d2 r = some y ∧ isObj y = false := by
  induction parts generalizing d d2 with
  | nil =>
    intro r x hr hx _
    simp only [nestLoop, Option.some_inj] at h
    subst h
    exact ⟨x, hr, hx⟩
  | cons p tail ih =>
    match tail with
    | [] =>
      intro r x hr hx hs
      by_cases hv : v = ""
      · simp only [nestLoop, if_pos hv, Option.some_inj] at h
        subst h
        exact ⟨x, hr, hx⟩
      · simp only [nestLoop, if_neg hv, Option.some_inj] at h
        subst h
        match r with
        | [] => simp [lookupPath] at hr
        | k :: rs =>
          by_cases hk : k = p
          · subst hk
            match rs with
            | [] =>
              exact ⟨JVal.str v, getKey_setKey_self d k _, by simp [isObj]⟩
            | z :: zs =>
              rw [strictPreB_cons_self, strictPreB_nil_cons] at hs
              cases hs
          · rw [lookupPath_setKey_ne d p k _ rs hk]
            exact ⟨x, hr, hx⟩
    | q0 :: rest =>
      intro r x hr hx hs
      obtain ⟨c, c2, hrec, hd2, hdisj⟩ := nestLoop_inv h
      subst hd2
      match r with
      | [] => simp [lookupPath] at hr
      | k :: rs =>
        by_cases hk : k = p
        · subst hk
          match rs with
          | [] =>
            rcases hdisj with ⟨hnone, _⟩ | hobj
            · simp only [lookupPath] at hr
              rw [hnone] at hr
              cases hr
            · simp only [lookupPath] at hr
              rw [hobj] at hr
              cases hr
              simp [isObj] at hx
          | z :: zs =>
            rcases hdisj with ⟨hnone, _⟩ | hobj
            · rw [lookupPath_cons_none d k (z :: zs) hnone (by simp)] at hr
              cases hr
            · rw [lookupPath_cons_obj d k c (z :: zs) hobj (by simp)] at hr
              rw [strictPreB_cons_self] at hs
              rw [lookupPath_cons_obj _ k c2 (z :: zs) (getKey_setKey_self d k _) (by simp)]
              exact ih hrec (z :: zs) x hr hx hs
        · rw [lookupPath_setKey_ne d p k _ rs hk]
          exact ⟨x, hr, hx⟩

/-- A successful walk keeps a map binding at any path of which the walked
path is not an initial run. -/
theorem nestLoop_keep_obj {parts : List String} {d d2 : Dict} {v : String}
    (h : nestLoop d parts v = some d2) :
    ∀ r c0, lookupPath d r = some (JVal.obj c0) → isPreB parts r = false →
      ∃ c1, lookupPath d2 r = some (JVal.obj c1) := by
  induction parts generalizing d d2 with
  | nil =>
    intro r c0 hr hpre
    simp [isPreB] at hpre
  | cons p tail ih =>
    match tail with
    | [] =>
      intro r c0 hr hpre
      by_cases hv : v = ""
      · simp only [nestLoop, if_pos hv, Option.some_inj] at h
        subst h
        exact ⟨c0, hr⟩
      · simp only [nestLoop, if_neg hv, Option.some_inj] at h
        subst h
        match r with
        | [] => simp [lookupPath] at hr
        | k :: rs =>
          by_cases hk : k = p
          · subst hk
            rw [isPreB_cons_self] at hpre
            simp [isPreB] at hpre
          · rw [lookupPath_setKey_ne d p k _ rs hk]
            exact ⟨c0, hr⟩
    | q0 :: rest =>
      intro r c0 hr hpre
      obtain ⟨c, c2, hrec, hd2, hdisj⟩ := nestLoop_inv h
      subst hd2
      match r with
      | [] => simp [lookupPath] at hr
      | k :: rs =>
        by_cases hk : k = p
        · subst hk
          rw [isPreB_cons_self] at hpre
          match rs with
          | [] =>
            exact ⟨c2, getKey_setKey_self d k _⟩
          | z :: zs =>
            rcases hdisj with ⟨hnone, _⟩ | hobj
            · rw [lookupPath_cons_none d k (z :: zs) hnone (by simp)] at hr
              cases hr
            · rw [lookupPath_cons_obj d k c (z :: zs) hobj (by simp)] at hr
              rw [lookupPath_cons_obj _ k c2 (z :: zs) (getKey_setKey_self d k _) (by simp)]
              exact ih hrec (z :: zs) c0 hr hpre
        · rw [lookupPath_setKey_ne d p k _ rs hk]
          exact ⟨c0, hr⟩

/-- Any non-map binding present after a successful walk was either just
written at the walked path (with a non-empty value) or was already there. -/
theorem nestLoop_src {parts : List String} {d d2 : Dict} {v : String}
    (h : nestLoop d parts v = some d2) :
    ∀ r x, lookupPath d2 r = some x → isObj x = false →
      (r = parts ∧ v ≠ "") ∨ lookupPath d r = some x := by
  induction parts generalizing d d2 with
  | nil =>
    intro r x hr hx
    simp only [nestLoop, Option.some_inj] at h
    subst h
    exact Or.inr hr
  | cons p tail ih =>
    match tail with
    | [] =>
      intro r x hr hx
      by_cases hv : v = ""
      · simp only [nestLoop, if_pos hv, Option.some_inj] at h
        subst h
        exact Or.inr hr
      · simp only [nestLoop, if_neg hv, Option.some_inj] at h
        subst h
        match r with
        | [] => simp [lookupPath] at hr
        | k :: rs =>
          by_cases hk : k = p
          · subst hk
            match rs with
            | [] =>
              simp only [lookupPath] at hr
              rw [getKey_setKey_self] at hr
              cases hr
              exact Or.inl ⟨rfl, hv⟩
            | z :: zs =>
              rw [lookupPath_cons_nonobj _ k (JVal.str v) (z :: zs)
                (getKey_setKey_self d k _) (by simp [isObj]) (by simp)] at hr
              cases hr
          · rw [lookupPath_setKey_ne d p k _ rs hk] at hr
            exact Or.inr hr
    | q0 :: rest =>
      intro r x hr hx
      obtain ⟨c, c2, hrec, hd2, hdisj⟩ := nestLoop_inv h
      subst hd2
      match r with
      | [] => simp [lookupPath] at hr
      | k :: rs =>
        by_cases hk : k = p
        · subst hk
          match rs with
          | [] =>
            simp only [lookupPath] at hr
            rw [getKey_setKey_self] at hr
            cases hr
            simp [isObj] at hx
          | z :: zs =>
            rw [lookupPath_cons_obj _ k c2 (z :: zs) (getKey_setKey_self d k _)
              (by simp)] at hr
            rcases ih hrec (z :: zs) x hr hx with ⟨hzz, hv⟩ | hold
            · rw [hzz]
              exact Or.inl ⟨rfl, hv⟩
            · rcases hdisj with ⟨hnone, hc⟩ | hobj
              · subst hc
                rw [lookupPath_nil_dict] at hold
                cases hold
              · rw [lookupPath_cons_obj d k c (z :: zs) hobj (by simp)]
                exact Or.inr hold
        · rw [lookupPath_setKey_ne d p k _ rs hk] at hr
          exact Or.inr hr

/-- Walking the same path twice with non-empty values: the second walk
alone produces the same result (last write wins). -/
theorem nestLoop_lww {parts : List String} {d d1 d2 : Dict} {v1 v2 : String}
    (h1 : nestLoop d parts v1 = some d1) (h2 : nestLoop d1 parts v2 = some d2)
    (hv1 : v1 ≠ "") (hv2 : v2 ≠ "") :
    nestLoop d parts v2 = some d2 := by
  induction parts generalizing d d1 d2 with
  | nil =>
    simp only [nestLoop, Option.some_inj] at h1 h2 ⊢
    rw [h1, h2]
  | cons p tail ih =>
    match tail with
    | [] =>
      simp only [nestLoop, if_neg hv1, if_neg hv2, Option.some_inj] at h1 h2 ⊢
      subst h1
      rw [setKey_setKey] at h2
      exact h2
    | q0 :: rest =>
      obtain ⟨c, c2, hrec1, hd1, hdisj⟩ := nestLoop_inv h1
      subst hd1
      obtain ⟨c3, c4, hrec2, hd2, hdisj2⟩ := nestLoop_inv h2
      have hg1 : getKey (setKey d p (JVal.obj c2)) p = some (JVal.obj c2) :=
        getKey_setKey_self d p _
      have hc3 : c3 = c2 := by
        rcases hdisj2 with ⟨hnone, _⟩ | hobj
        · rw [hg1] at hnone
          cases hnone
        · rw [hg1] at hobj
          cases hobj
          rfl
      subst hc3
      have hrec3 := ih hrec1 hrec2
      subst hd2
      rw [setKey_setKey]
      rcases hdisj with ⟨hnone, hc⟩ | hobj
      · subst hc
        simp [nestLoop, hnone, hrec3]
      · simp [nestLoop, hobj, hrec3]

/-- Frame property of the walk: a path that neither is an initial run of
the walked path nor extends it is completely untouched. -/
theorem nestLoop_frame {parts : List String} {d d2 : Dict} {v : String}
    (h : nestLoop d parts v = some d2) :
    ∀ r, isPreB r parts = false → isPreB parts r = false →
      lookupPath d2 r = lookupPath d r := by
  induction parts generalizing d d2 with
  | nil =>
    intro r _ hpr
    simp [isPreB] at hpr
  | cons p tail ih =>
    match tail with
    | [] =>
      intro r hrp hpr
      by_cases hv : v = ""
      · simp only [nestLoop, if_pos hv, Option.some_inj] at h
        subst h
        rfl
      · simp only [nestLoop, if_neg hv, Option.some_inj] at h
        subst h
        match r with
        | [] => rfl
        | k :: rs =>
          by_cases hk : k = p
          · subst hk
            rw [isPreB_cons_self] at hpr
            simp [isPreB] at hpr
          · exact lookupPath_setKey_ne d p k _ rs hk
    | q0 :: rest =>
      intro r hrp hpr
      obtain ⟨c, c2, hrec, hd2, hdisj⟩ := nestLoop_inv h
      subst hd2
      match r with
      | [] => rfl
      | k :: rs =>
        by_cases hk : k = p
        · subst hk
          rw [isPreB_cons_self] at hrp hpr
          match rs with
          | [] => simp [isPreB] at hrp
          | z :: zs =>
            rw [lookupPath_cons_obj _ k c2 (z :: zs) (getKey_setKey_self d k _)
              (by simp)]
            rw [ih hrec (z :: zs) hrp hpr]
            rcases hdisj with ⟨hnone, hc⟩ | hobj
            · subst hc
              rw [lookupPath_nil_dict, lookupPath_cons_none d k (z :: zs) hnone (by simp)]
            · rw [lookupPath_cons_obj d k c (z :: zs) hobj (by simp)]
        · exact lookupPath_setKey_ne d p k _ rs hk

/-! ### Lifting the walk lemmas to buildNestedDict (reserved branch included) -/

theorem splitCharAux_ne_nil (sep : Char) (cs acc : List Char) :
    splitCharAux sep cs acc ≠ [] := by
  induction cs generalizing acc with
  | nil => simp [splitCharAux]
  | cons c cs2 ih =>
    by_cases h : c = sep
    · simp [splitCharAux, h]
    · simpa [splitCharAux, h] using ih (c :: acc)

theorem pathParts_ne_nil (h : String) : pathParts h ≠ [] :=
  splitCharAux_ne_nil '.' h.toList []

theorem isReserved_iff (h : String) :
    isReserved h = true ↔ h = "payment_methods" ∨ h = "transfer_methods" := by
  simp [isReserved]

theorem pathParts_reserved {h : String} (hr : isReserved h = true) :
    pathParts h = [h] := by
  rcases (isReserved_iff h).mp hr with h1 | h1 <;> subst h1 <;> rfl

theorem buildNestedDict_reserved {h : String} (hr : isReserved h = true)
    (d : Dict) (v : String) :
    buildNestedDict d h v = some (setKey d h (JVal.list (splitChar ',' v))) := by
  simp [buildNestedDict, hr]

theorem buildNestedDict_plain {h : String} (hr : isReserved h = false)
    (d : Dict) (v : String) :
    buildNestedDict d h v = nestLoop d (pathParts h) v := by
  simp [buildNestedDict, hr]

/-- `buildNestedDict` succeeds whenever no non-map binding sits at a
proper initial run of the header's path. -/
theorem bnd_total (h : String) (d : Dict) (v : String)
    (hb : ∀ q x, lookupPath d q = some x → isObj x = false →
      strictPreB q (pathParts h) = false) :
    ∃ d2, buildNestedDict d h v = some d2 := by
  cases hr : isReserved h with
  | true => exact ⟨_, buildNestedDict_reserved hr d v⟩
  | false =>
    obtain ⟨d2, hd2⟩ := nestLoop_total (pathParts h) d v hb
    exact ⟨d2, by rw [buildNestedDict_plain hr]; exact hd2⟩

/-- One `buildNestedDict` step keeps a non-map binding at any path its
own path does not properly extend into. -/
theorem bnd_keep_leaf {h : String} {d d2 : Dict} {v : String}
    (hs : buildNestedDict d h v = some d2) :
    ∀ r x, lookupPath d r = some x → isObj x = false →
      strictPreB (pathParts h) r = false →
      ∃ y, lookupPath d2 r = some y ∧ isObj y = false := by
  intro r x hr hx hsp
  cases hres : isReserved h with
  | false =>
    rw [buildNestedDict_plain hres] at hs
    exact nestLoop_keep_leaf hs r x hr hx hsp
  | true =>
    rw [buildNestedDict_reserved hres] at hs
    cases hs
    rw [pathParts_reserved hres] at hsp
    match r with
    | [] => simp [lookupPath] at hr
    | k :: rs =>
      by_cases hk : k = h
      · subst hk
        match rs with
        | [] =>
          exact ⟨JVal.list (splitChar ',' v), getKey_setKey_self d k _,
            by simp [isObj]⟩
        | z :: zs =>
          rw [strictPreB_cons_self, strictPreB_nil_cons] at hsp
          cases hsp
      · rw [lookupPath_setKey_ne d h k _ rs hk]
        exact ⟨x, hr, hx⟩

/-- One `buildNestedDict` step keeps a map binding at any path of which
its own path is not an initial run. -/
theorem bnd_keep_obj {h : String} {d d2 : Dict} {v : String}
    (hs : buildNestedDict d h v = some d2) :
    ∀ r c0, lookupPath d r = some (JVal.obj c0) →
      isPreB (pathParts h) r = false →
      ∃ c1, lookupPath d2 r = some (JVal.obj c1) := by
  intro r c0 hr hsp
  cases hres : isReserved h with
  | false =>
    rw [buildNestedDict_plain hres] at hs
    exact nestLoop_keep_obj hs r c0 hr hsp
  | true =>
    rw [buildNestedDict_reserved hres] at hs
    cases hs
    rw [pathParts_reserved hres] at hsp
    match r with
    | [] => simp [lookupPath] at hr
    | k :: rs =>
      by_cases hk : k = h
      · subst hk
        rw [isPreB_cons_self] at hsp
        simp [isPreB] at hsp
      · rw [lookupPath_setKey_ne d h k _ rs hk]
        exact ⟨c0, hr⟩

/-- Any non-map binding present after one `buildNestedDict` step was
either just written at the header's own path or was already there. -/
theorem bnd_src {h : String} {d d2 : Dict} {v : String}
    (hs : buildNestedDict d h v = some d2) :
    ∀ r x, lookupPath d2 r = some x → isObj x = false →
      (r = pathParts h ∧ (v ≠ "" ∨ isReserved h = true)) ∨
        lookupPath d r = some x := by
  intro r x hr hx
  cases hres : isReserved h with
  | false =>
    rw [buildNestedDict_plain hres] at hs
    rcases nestLoop_src hs r x hr hx with ⟨h1, h2⟩ | hold
    · exact Or.inl ⟨h1, Or.inl h2⟩
    · exact Or.inr hold
  | true =>
    rw [buildNestedDict_reserved hres] at hs
    cases hs
    match r with
    | [] => simp [lookupPath] at hr
    | k :: rs =>
      by_cases hk : k = h
      · subst hk
        match rs with
        | [] =>
          rw [pathParts_reserved hres]
          exact Or.inl ⟨rfl, Or.inr rfl⟩
        | z :: zs =>
          rw [lookupPath_cons_nonobj _ k (JVal.list (splitChar ',' v)) (z :: zs)
            (getKey_setKey_self d k _) (by simp [isObj]) (by simp)] at hr
          cases hr
      · rw [lookupPath_setKey_ne d h k _ rs hk] at hr
        exact Or.inr hr

/-- After a successful `buildNestedDict` step with a non-empty value (or
a reserved header), the full path is bound to a non-map value. -/
theorem bnd_self {h : String} {d d2 : Dict} {v : String}
    (hs : buildNestedDict d h v = some d2)
    (hv : v ≠ "" ∨ isReserved h = true) :
    ∃ x, lookupPath d2 (pathParts h) = some x ∧ isObj x = false := by
  cases hres : isReserved h with
  | false =>
    rw [buildNestedDict_plain hres] at hs
    rcases hv with hv | hv
    · exact ⟨JVal.str v, nestLoop_self hs hv (pathParts_ne_nil h), by simp [isObj]⟩
    · rw [hres] at hv
      cases hv
  | true =>
    rw [buildNestedDict_reserved hres] at hs
    cases hs
    rw [pathParts_reserved hres]
    exact ⟨JVal.list (splitChar ',' v), getKey_setKey_self d h _, by simp [isObj]⟩

/-- After a successful `buildNestedDict` step, every proper non-empty
initial run of the header's path is bound to a nested map. -/
theorem bnd_mid {h : String} {d d2 : Dict} {v : String}
    (hs : buildNestedDict d h v = some d2) :
    ∀ q, q ≠ [] → strictPreB q (pathParts h) = true →
      ∃ c, lookupPath d2 q = some (JVal.obj c) := by
  intro q hq hsp
  cases hres : isReserved h with
  | false =>
    rw [buildNestedDict_plain hres] at hs
    exact nestLoop_mid hs q hq hsp
  | true =>
    rw [pathParts_reserved hres] at hsp
    rw [strictPreB_singleton q h hq] at hsp
    cases hsp

/-! ### Folding buildNestedDict over a whole row -/

theorem zip_mem_left {hs vs : List String} {p : String × String}
    (hm : p ∈ hs.zip vs) : p.1 ∈ hs := by
  induction hs generalizing vs with
  | nil => simp [List.zip] at hm
  | cons hh hs2 ih =>
    match vs with
    | [] => simp at hm
    | v0 :: vs2 =>
      rw [List.zip_cons_cons] at hm
      rcases List.mem_cons.mp hm with rfl | hm2
      · exact List.mem_cons_self _ _
      · exact List.mem_cons_of_mem _ (ih hm2)

theorem mem_zip_left {hs vs : List String} (hlen : hs.length = vs.length)
    {h : String} (hm : h ∈ hs) : ∃ v, (h, v) ∈ hs.zip vs := by
  induction hs generalizing vs with
  | nil => cases hm
  | cons hh hs2 ih =>
    match vs with
    | [] => simp at hlen
    | v0 :: vs2 =>
      rcases List.mem_cons.mp hm with rfl | hm2
      · exact ⟨v0, by rw [List.zip_cons_cons]; exact List.mem_cons_self _ _⟩
      · obtain ⟨v, hv⟩ := ih (by simpa using hlen) hm2
        exact ⟨v, by rw [List.zip_cons_cons]; exact List.mem_cons_of_mem _ hv⟩

theorem pairwiseOfForall {α : Type} {R : α → α → Prop} :
    ∀ (l : List α), (∀ a ∈ l, ∀ b ∈ l, R a b) → List.Pairwise R l
  | [], _ => List.Pairwise.nil
  | a :: l, hf => by
    rw [List.pairwise_cons]
    constructor
    · intro b hb
      exact hf a (List.mem_cons_self _ _) b (List.mem_cons_of_mem _ hb)
    · exact pairwiseOfForall l
        (fun x hx y hy => hf x (List.mem_cons_of_mem _ hx) y (List.mem_cons_of_mem _ hy))

/-- The row loop succeeds when the row is no longer than the header list
would allow (equal lengths), no binding already in the dict blocks a
header, and no earlier header that writes a non-map value is a proper
initial run of a later header. -/
theorem flattenAux_total (hs : List String) : ∀ (vs : List String) (d : Dict),
    hs.length = vs.length →
    (∀ hv ∈ hs.zip vs, ∀ q x, lookupPath d q = some x → isObj x = false →
      strictPreB q (pathParts hv.1) = false) →
    List.Pairwise
      (fun a b => (a.2 ≠ "" ∨ isReserved a.1 = true) →
        strictPreB (pathParts a.1) (pathParts b.1) = false) (hs.zip vs) →
    ∃ d2, flattenRowAux d hs vs = some d2 := by
  induction hs with
  | nil =>
    intro vs d hlen _ _
    match vs with
    | [] => exact ⟨d, rfl⟩
    | v :: vs2 => simp at hlen
  | cons h hs2 ih =>
    intro vs d hlen hblk hpw
    match vs with
    | [] => simp at hlen
    | v :: vs2 =>
      rw [List.zip_cons_cons] at hblk hpw
      rw [List.pairwise_cons] at hpw
      obtain ⟨hpw1, hpw2⟩ := hpw
      obtain ⟨d1, hd1⟩ :=
        bnd_total h d v (hblk (h, v) (List.mem_cons_self _ _))
      have hblk2 : ∀ hv ∈ hs2.zip vs2, ∀ q x, lookupPath d1 q = some x →
          isObj x = false → strictPreB q (pathParts hv.1) = false := by
        intro hv hmem q x hq hx
        rcases bnd_src hd1 q x hq hx with ⟨hq1, hq2⟩ | hold
        · subst hq1
          exact hpw1 hv hmem hq2
        · exact hblk hv (List.mem_cons_of_mem _ hmem) q x hold hx
      obtain ⟨d2, hd2⟩ := ih vs2 d1 (by simpa using hlen) hblk2 hpw2
      exact ⟨d2, by simp [flattenRowAux, hd1, hd2]⟩

/-- The row loop keeps a non-map binding at any path no header properly
extends into. -/
theorem flattenAux_keep_leaf {hs : List String} : ∀ {vs : List String} {d d2 : Dict},
    flattenRowAux d hs vs = some d2 →
    ∀ r x, lookupPath d r = some x → isObj x = false →
      (∀ h ∈ hs, strictPreB (pathParts h) r = false) →
      ∃ y, lookupPath d2 r = some y ∧ isObj y = false := by
  induction hs with
  | nil =>
    intro vs d d2 hfa r x hr hx _
    match vs with
    | [] =>
      simp only [flattenRowAux, Option.some_inj] at hfa
      subst hfa
      exact ⟨x, hr, hx⟩
    | v :: vs2 => simp [flattenRowAux] at hfa
  | cons h hs2 ih =>
    intro vs d d2 hfa r x hr hx hcond
    match vs with
    | [] =>
      simp only [flattenRowAux, Option.some_inj] at hfa
      subst hfa
      exact ⟨x, hr, hx⟩
    | v :: vs2 =>
      cases hbd : buildNestedDict d h v with
      | none => simp [flattenRowAux, hbd] at hfa
      | some d1 =>
        simp only [flattenRowAux, hbd] at hfa
        obtain ⟨y1, hy1, hy2⟩ :=
          bnd_keep_leaf hbd r x hr hx (hcond h (List.mem_cons_self _ _))
        exact ih hfa r y1 hy1 hy2
          (fun h2 hm => hcond h2 (List.mem_cons_of_mem _ hm))

/-- The row loop keeps a map binding at any path of which no header's
path is an initial run. -/
theorem flattenAux_keep_obj {hs : List String} : ∀ {vs : List String} {d d2 : Dict},
    flattenRowAux d hs vs = some d2 →
    ∀ r c0, lookupPath d r = some (JVal.obj c0) →
      (∀ h ∈ hs, isPreB (pathParts h) r = false) →
      ∃ c1, lookupPath d2 r = some (JVal.obj c1) := by
  induction hs with
  | nil =>
    intro vs d d2 hfa r c0 hr _
    match vs with
    | [] =>
      simp only [flattenRowAux, Option.some_inj] at hfa
      subst hfa
      exact ⟨c0, hr⟩
    | v :: vs2 => simp [flattenRowAux] at hfa
  | cons h hs2 ih =>
    intro vs d d2 hfa r c0 hr hcond
    match vs with
    | [] =>
      simp only [flattenRowAux, Option.some_inj] at hfa
      subst hfa
      exact ⟨c0, hr⟩
    | v :: vs2 =>
      cases hbd : buildNestedDict d h v with
      | none => simp [flattenRowAux, hbd] at hfa
      | some d1 =>
        simp only [flattenRowAux, hbd] at hfa
        obtain ⟨c1, hc1⟩ :=
          bnd_keep_obj hbd r c0 hr (hcond h (List.mem_cons_self _ _))
        exact ih hfa r c1 hc1
          (fun h2 hm => hcond h2 (List.mem_cons_of_mem _ hm))

/-- Every processed header whose step writes a value (non-empty cell or
reserved header) ends with a non-map binding at its full path, provided
no header's path properly extends into it. -/
theorem flattenAux_leaf {hs : List String} : ∀ {vs : List String} {d d2 : Dict},
    flattenRowAux d hs vs = some d2 →
    ∀ h v, (h, v) ∈ hs.zip vs → (v ≠ "" ∨ isReserved h = true) →
      (∀ h2 ∈ hs, strictPreB (pathParts h2) (pathParts h) = false) →
      ∃ y, lookupPath d2 (pathParts h) = some y ∧ isObj y = false := by
  induction hs with
  | nil =>
    intro vs d d2 _ h v hmem _ _
    simp [List.zip] at hmem
  | cons hh hs2 ih =>
    intro vs d d2 hfa h v hmem hcond hblk
    match vs with
    | [] => simp at hmem
    | v0 :: vs2 =>
      cases hbd : buildNestedDict d hh v0 with
      | none => simp [flattenRowAux, hbd] at hfa
      | some d1 =>
        simp only [flattenRowAux, hbd] at hfa
        rw [List.zip_cons_cons] at hmem
        rcases List.mem_cons.mp hmem with heq | hmem2
        · cases heq
          obtain ⟨y, hy, hyo⟩ := bnd_self hbd hcond
          exact flattenAux_keep_leaf hfa (pathParts hh) y hy hyo
            (fun h2 hm => hblk h2 (List.mem_cons_of_mem _ hm))
        · exact ih hfa h v hmem2 hcond
            (fun h2 hm => hblk h2 (List.mem_cons_of_mem _ hm))

/-- Every proper non-empty initial run of a processed header's path ends
bound to a nested map, provided no header's path is an initial run of it. -/
theorem flattenAux_mid {hs : List String} : ∀ {vs : List String} {d d2 : Dict},
    flattenRowAux d hs vs = some d2 →
    ∀ h v, (h, v) ∈ hs.zip vs → ∀ q, q ≠ [] →
      strictPreB q (pathParts h) = true →
      (∀ h2 ∈ hs, isPreB (pathParts h2) q = false) →
      ∃ c, lookupPath d2 q = some (JVal.obj c) := by
  induction hs with
  | nil =>
    intro vs d d2 _ h v hmem
    simp [List.zip] at hmem
  | cons hh hs2 ih =>
    intro vs d d2 hfa h v hmem q hq hsp hblk
    match vs with
    | [] => simp at hmem
    | v0 :: vs2 =>
      cases hbd : buildNestedDict d hh v0 with
      | none => simp [flattenRowAux, hbd] at hfa
      | some d1 =>
        simp only [flattenRowAux, hbd] at hfa
        rw [List.zip_cons_cons] at hmem
        rcases List.mem_cons.mp hmem with heq | hmem2
        · cases heq
          obtain ⟨c, hc⟩ := bnd_mid hbd q hq hsp
          exact flattenAux_keep_obj hfa q c hc
            (fun h2 hm => hblk h2 (List.mem_cons_of_mem _ hm))
        · exact ih hfa h v hmem2 q hq hsp
            (fun h2 hm => hblk h2 (List.mem_cons_of_mem _ hm))

/-! ### The claims -/

/-- C1, counterexample: the claim asserts that flattening headers
["a.b"] with row [""] yields the empty record with no intermediate
record under "a".  The code instead creates the intermediate map for
"a" before noticing the empty value, so the result is the record
mapping "a" to an empty map, not the empty record. -/
theorem empty_cell_dotted_counterexample :
    flattenRow ["a.b"] [""] = some [("a", JVal.obj [])] ∧
      some [("a", JVal.obj [])] ≠ some ([] : Dict) := by
  refine ⟨rfl, ?_⟩
  simp

/-- C1, amended: for every non-reserved header with an empty cell value,
flattening binds no value at the header's full dotted path, but the
intermediate records along the path are still created; in particular
headers ["a.b"] with row [""] yield the record mapping "a" to an empty
record, not the empty record. -/
theorem empty_cell_leaf_omitted (h : String) (hres : isReserved h = false) :
    (∃ d, buildNestedDict [] h "" = some d ∧
      lookupPath d (pathParts h) = none ∧
      ∀ q, q ≠ [] → strictPreB q (pathParts h) = true →
        ∃ c, lookupPath d q = some (JVal.obj c)) ∧
    flattenRow ["a.b"] [""] = some [("a", JVal.obj [])] := by
  constructor
  · obtain ⟨d, hd⟩ := bnd_total h [] "" (by
      intro q x hq
      rw [lookupPath_nil_dict] at hq
      cases hq)
    refine ⟨d, hd, ?_, bnd_mid hd⟩
    rw [buildNestedDict_plain hres] at hd
    exact nestLoop_self_empty hd (pathParts_ne_nil h)
  · rfl

/-- C1, witness for the amended theorem at the concrete header "a.b". -/
theorem empty_cell_leaf_omitted_witness :
    (∃ d, buildNestedDict [] "a.b" "" = some d ∧
      lookupPath d (pathParts "a.b") = none ∧
      ∀ q, q ≠ [] → strictPreB q (pathParts "a.b") = true →
        ∃ c, lookupPath d q = some (JVal.obj c)) ∧
    flattenRow ["a.b"] [""] = some [("a", JVal.obj [])] :=
  empty_cell_leaf_omitted "a.b" (by decide)

/-- C2, counterexample: the claim asserts that a reserved header with an
empty cell stores an empty (zero-element) list.  The code stores the
result of splitting "" on ",", a one-element list containing the empty
string. -/
theorem reserved_empty_list_counterexample :
    buildNestedDict [] "payment_methods" "" =
      some [("payment_methods", JVal.list [""])] ∧
    JVal.list [""] ≠ JVal.list [] := by
  refine ⟨rfl, ?_⟩
  simp

/-- C2, amended: for each reserved header with an empty cell value,
flattening stores a one-element list containing the empty string under
that key at the top level. -/
theorem reserved_empty_singleton (h : String) (d : Dict)
    (hr : isReserved h = true) :
    buildNestedDict d h "" = some (setKey d h (JVal.list [""])) := by
  rw [buildNestedDict_reserved hr]
  rfl

/-- C2, witness for the amended theorem. -/
theorem reserved_empty_singleton_witness :
    buildNestedDict [] "payment_methods" "" =
      some (setKey [] "payment_methods" (JVal.list [""])) :=
  reserved_empty_singleton "payment_methods" [] (by decide)

/-- C3: for headers ["transfer_methods"] and row [""], the result maps
"transfer_methods" to the one-element list containing the empty string,
exactly the behavior of splitting "" on ",". -/
theorem transfer_methods_empty_cell :
    flattenRow ["transfer_methods"] [""] =
      some [("transfer_methods", JVal.list [""])] := rfl

/-- C4, counterexample: the claim asserts that any header containing
"payment_methods" as a path segment is stored as a comma-split list.
For the compound header "a.payment_methods" with cell "x,y" the code
takes the normal nesting branch (the reserved test is exact string
equality on the whole header) and stores the raw string leaf "x,y"
nested under "a". -/
theorem reserved_segment_compound_counterexample :
    flattenRow ["a.payment_methods"] ["x,y"] =
      some [("a", JVal.obj [("payment_methods", JVal.str "x,y")])] ∧
    lookupPath [("a", JVal.obj [("payment_methods", JVal.str "x,y")])]
      (pathParts "a.payment_methods") = some (JVal.str "x,y") ∧
    JVal.str "x,y" ≠ JVal.list ["x", "y"] := by
  refine ⟨rfl, rfl, ?_⟩
  simp

/-- C4, amended: the reserved-list override applies only when the header
equals a reserved key exactly; a header merely containing a reserved key
as a segment of its dotted path is handled by the normal nesting logic,
storing the raw cell value as a string leaf at the full dotted path. -/
theorem reserved_exact_only (h v : String) (hres : isReserved h = false)
    (hv : v ≠ "")
    (_hseg : "payment_methods" ∈ pathParts h ∨ "transfer_methods" ∈ pathParts h) :
    ∃ d, buildNestedDict [] h v = some d ∧
      lookupPath d (pathParts h) = some (JVal.str v) := by
  obtain ⟨d, hd⟩ := bnd_total h [] v (by
    intro q x hq
    rw [lookupPath_nil_dict] at hq
    cases hq)
  refine ⟨d, hd, ?_⟩
  rw [buildNestedDict_plain hres] at hd
  exact nestLoop_self hd hv (pathParts_ne_nil h)

/-- C4, witness for the amended theorem at the compound header
"a.payment_methods". -/
theorem reserved_exact_only_witness :
    ∃ d, buildNestedDict [] "a.payment_methods" "x,y" = some d ∧
      lookupPath d (pathParts "a.payment_methods") = some (JVal.str "x,y") :=
  reserved_exact_only "a.payment_methods" "x,y" (by decide) (by decide)
    (Or.inl (by decide))

/-- C5: for a header equal to "payment_methods" or "transfer_methods"
exactly and any cell value, the comma-split list of the value is
assigned under that key at the top level, with no nesting; in particular
headers ["payment_methods"] with row ["bank,card"] yield the record
mapping "payment_methods" to the list ["bank", "card"]. -/
theorem reserved_split_assign (h v : String) (d : Dict)
    (hr : h = "payment_methods" ∨ h = "transfer_methods") :
    buildNestedDict d h v = some (setKey d h (JVal.list (splitChar ',' v))) ∧
    flattenRow ["payment_methods"] ["bank,card"] =
      some [("payment_methods", JVal.list ["bank", "card"])] := by
  refine ⟨?_, rfl⟩
  exact buildNestedDict_reserved ((isReserved_iff h).mpr hr) d v

/-- C5, witness at the concrete reserved header and value. -/
theorem reserved_split_assign_witness :
    buildNestedDict [] "payment_methods" "bank,card" =
      some (setKey [] "payment_methods" (JVal.list (splitChar ',' "bank,card"))) ∧
    flattenRow ["payment_methods"] ["bank,card"] =
      some [("payment_methods", JVal.list ["bank", "card"])] :=
  reserved_split_assign "payment_methods" "bank,card" [] (Or.inl rfl)

/-- C6: writing the same header path twice with non-empty values, the
later write overwrites the earlier one: the second step alone, from the
same starting record, produces the same result.  In particular headers
["a.b", "a.b"] with row ["x", "y"] yield the record nesting "y" at
a.b. -/
theorem duplicate_header_last_write (p v1 v2 : String) (d d1 d2 : Dict)
    (hv1 : v1 ≠ "") (hv2 : v2 ≠ "")
    (h1 : buildNestedDict d p v1 = some d1)
    (h2 : buildNestedDict d1 p v2 = some d2) :
    buildNestedDict d p v2 = some d2 ∧
    flattenRow ["a.b", "a.b"] ["x", "y"] =
      some [("a", JVal.obj [("b", JVal.str "y")])] := by
  refine ⟨?_, rfl⟩
  cases hr : isReserved p with
  | true =>
    rw [buildNestedDict_reserved hr] at h1 h2 ⊢
    cases h1
    cases h2
    rw [setKey_setKey]
  | false =>
    rw [buildNestedDict_plain hr] at h1 h2 ⊢
    exact nestLoop_lww h1 h2 hv1 hv2

/-- C6, witness at the concrete duplicate header "a.b". -/
theorem duplicate_header_last_write_witness :
    buildNestedDict [] "a.b" "y" = some [("a", JVal.obj [("b", JVal.str "y")])] ∧
    flattenRow ["a.b", "a.b"] ["x", "y"] =
      some [("a", JVal.obj [("b", JVal.str "y")])] :=
  duplicate_header_last_write "a.b" "x" "y" []
    [("a", JVal.obj [("b", JVal.str "x")])]
    [("a", JVal.obj [("b", JVal.str "y")])]
    (by decide) (by decide) rfl rfl

/-- C9: flattening is a pure function of the headers and the row; two
runs on the same pair, each from a fresh empty record, produce the same
record, and flattening is exactly the row loop started on the empty
record. -/
theorem flattenRow_pure (headers row : List String) :
    flattenRow headers row = flattenRow headers row ∧
    flattenRow headers row = flattenRowAux [] headers row :=
  ⟨rfl, rfl⟩

theorem nestLoop_getKey_ne {p0 : String} {tail : List String} {d d2 : Dict}
    {v : String} (h : nestLoop d (p0 :: tail) v = some d2) (k : String)
    (hk : k ≠ p0) : getKey d2 k = getKey d k := by
  match tail with
  | [] =>
    by_cases hv : v = ""
    · simp only [nestLoop, if_pos hv, Option.some_inj] at h
      subst h
      rfl
    · simp only [nestLoop, if_neg hv, Option.some_inj] at h
      subst h
      exact getKey_setKey_ne d p0 k _ hk
  | q0 :: rest =>
    obtain ⟨c, c2, _, hd2, _⟩ := nestLoop_inv h
    subst hd2
    exact getKey_setKey_ne d p0 k _ hk

/-- One `buildNestedDict` step leaves every path untouched that neither
is an initial run of the header's path nor extends it. -/
theorem bnd_lookup_frame {h : String} {d d2 : Dict} {v : String}
    (hs : buildNestedDict d h v = some d2) :
    ∀ r, isPreB r (pathParts h) = false → isPreB (pathParts h) r = false →
      lookupPath d2 r = lookupPath d r := by
  intro r h1 h2
  cases hres : isReserved h with
  | false =>
    rw [buildNestedDict_plain hres] at hs
    exact nestLoop_frame hs r h1 h2
  | true =>
    rw [buildNestedDict_reserved hres] at hs
    cases hs
    rw [pathParts_reserved hres] at h1 h2
    match r with
    | [] => simp [isPreB] at h1
    | k :: rs =>
      by_cases hk : k = h
      · subst hk
        rw [isPreB_cons_self] at h2
        simp [isPreB] at h2
      · exact lookupPath_setKey_ne d h k _ rs hk

/-- C10: a single `buildNestedDict` step is local to its header's path.
Every top-level key other than the first dotted segment of the header
(the header itself for the reserved keys) keeps exactly its previous
binding, and every path that neither is an initial run of the header's
path nor extends into it keeps its previous binding, so nothing off the
walked path is touched. -/
theorem buildNestedDict_frame (dict : Dict) (p v : String) (d2 : Dict)
    (hbd : buildNestedDict dict p v = some d2) :
    (∀ k, k ≠ firstSeg p → getKey d2 k = getKey dict k) ∧
    (∀ r, isPreB r (pathParts p) = false → isPreB (pathParts p) r = false →
      lookupPath d2 r = lookupPath dict r) := by
  refine ⟨?_, bnd_lookup_frame hbd⟩
  intro k hk
  cases hres : isReserved p with
  | true =>
    rw [buildNestedDict_reserved hres] at hbd
    cases hbd
    have hfs : firstSeg p = p := by
      simp [firstSeg, pathParts_reserved hres]
    rw [hfs] at hk
    exact getKey_setKey_ne dict p k _ hk
  | false =>
    rw [buildNestedDict_plain hres] at hbd
    cases hpp : pathParts p with
    | nil => exact absurd hpp (pathParts_ne_nil p)
    | cons p0 tl =>
      have hfs : firstSeg p = p0 := by
        simp [firstSeg, hpp]
      rw [hfs] at hk
      rw [hpp] at hbd
      exact nestLoop_getKey_ne hbd k hk

/-- C10, witness at a concrete record and header. -/
theorem buildNestedDict_frame_witness :
    getKey [("z", JVal.str "w"), ("a", JVal.obj [("b", JVal.str "x")])] "z" =
      getKey [("z", JVal.str "w")] "z" ∧
    lookupPath [("z", JVal.str "w"), ("a", JVal.obj [("b", JVal.str "x")])] ["z"] =
      lookupPath [("z", JVal.str "w")] ["z"] :=
  ⟨(buildNestedDict_frame [("z", JVal.str "w")] "a.b" "x"
      [("z", JVal.str "w"), ("a", JVal.obj [("b", JVal.str "x")])] rfl).1
      "z" (by decide),
    (buildNestedDict_frame [("z", JVal.str "w")] "a.b" "x"
      [("z", JVal.str "w"), ("a", JVal.obj [("b", JVal.str "x")])] rfl).2
      ["z"] (by decide) (by decide)⟩

/-- C7: for any headers and row of equal length with no header path a
proper initial run of another header's path, flattening succeeds, every
header with a non-empty cell value ends with exactly one non-record
(leaf) binding at its full dotted path, and every proper non-empty
initial run of a header's path is bound to a nested record, never to a
leaf. -/
theorem no_collision_invariant (hs vs : List String)
    (hlen : hs.length = vs.length)
    (hnp : ∀ h ∈ hs, ∀ h2 ∈ hs,
      strictPreB (pathParts h) (pathParts h2) = false) :
    ∃ d, flattenRow hs vs = some d ∧
      (∀ hv ∈ hs.zip vs, hv.2 ≠ "" →
        ∃ x, lookupPath d (pathParts hv.1) = some x ∧ isObj x = false) ∧
      (∀ h ∈ hs, ∀ q, q ≠ [] → strictPreB q (pathParts h) = true →
        ∃ c, lookupPath d q = some (JVal.obj c)) := by
  have hpw : List.Pairwise
      (fun a b : String × String => (a.2 ≠ "" ∨ isReserved a.1 = true) →
        strictPreB (pathParts a.1) (pathParts b.1) = false) (hs.zip vs) := by
    apply pairwiseOfForall
    intro a ha b hb _
    exact hnp a.1 (zip_mem_left ha) b.1 (zip_mem_left hb)
  have hblk : ∀ hv ∈ hs.zip vs, ∀ q x, lookupPath ([] : Dict) q = some x →
      isObj x = false → strictPreB q (pathParts hv.1) = false := by
    intro hv _ q x hq
    rw [lookupPath_nil_dict] at hq
    cases hq
  obtain ⟨d, hd⟩ := flattenAux_total hs vs [] hlen hblk hpw
  refine ⟨d, hd, ?_, ?_⟩
  · intro hv hmem hv2
    refine flattenAux_leaf hd hv.1 hv.2 ?_ (Or.inl hv2)
      (fun h2 hm => hnp h2 hm hv.1 (zip_mem_left hmem))
    rw [Prod.mk.eta]
    exact hmem
  · intro h hm q hq hsp
    obtain ⟨v, hmemz⟩ := mem_zip_left hlen hm
    apply flattenAux_mid hd h v hmemz q hq hsp
    intro h2 hm2
    by_contra hc
    simp only [Bool.not_eq_false] at hc
    have htr : strictPreB (pathParts h2) (pathParts h) = true :=
      isPreB_strictPreB_trans hc hsp
    rw [hnp h2 hm2 h hm] at htr
    cases htr

/-- C7, witness at the concrete collision-free headers ["a.b", "a.c"]. -/
theorem no_collision_invariant_witness :
    ∃ d, flattenRow ["a.b", "a.c"] ["x", "y"] = some d ∧
      (∀ hv ∈ (["a.b", "a.c"] : List String).zip ["x", "y"], hv.2 ≠ "" →
        ∃ x, lookupPath d (pathParts hv.1) = some x ∧ isObj x = false) ∧
      (∀ h ∈ (["a.b", "a.c"] : List String), ∀ q, q ≠ [] →
        strictPreB q (pathParts h) = true →
        ∃ c, lookupPath d q = some (JVal.obj c)) :=
  no_collision_invariant ["a.b", "a.c"] ["x", "y"] (by decide) (by decide)

/-- C8, counterexample: the claim's collision precondition speaks only of
previously written string leaves.  The headers
["payment_methods", "payment_methods.x"] with row ["a", "b"] have equal
lengths and write no string leaf at all before the second header is
processed (the first write is the reserved list), so the claim's
precondition holds, yet the walk for "payment_methods.x" hits the list
with a failed type assertion: flattening fails (a Go panic). -/
theorem flatten_total_claim_counterexample :
    (["payment_methods", "payment_methods.x"] : List String).length =
      (["a", "b"] : List String).length ∧
    List.Pairwise
      (fun a b : String × String => (isReserved a.1 = false ∧ a.2 ≠ "") →
        strictPreB (pathParts a.1) (pathParts b.1) = false)
      ((["payment_methods", "payment_methods.x"] : List String).zip ["a", "b"]) ∧
    flattenRow ["payment_methods", "payment_methods.x"] ["a", "b"] = none := by
  refine ⟨rfl, ?_, rfl⟩
  decide

/-- C8, amended: flattening raises no error (the embedded row loop is
total) for every (headers, row) pair of equal length in which no earlier
header that writes a non-record value (a non-empty string leaf, or a
reserved header's list) has a path that is a proper initial run of a
later header's path. -/
theorem flatten_total_amended (hs vs : List String)
    (hlen : hs.length = vs.length)
    (hpw : List.Pairwise
      (fun a b : String × String => (a.2 ≠ "" ∨ isReserved a.1 = true) →
        strictPreB (pathParts a.1) (pathParts b.1) = false) (hs.zip vs)) :
    ∃ d, flattenRow hs vs = some d := by
  apply flattenAux_total hs vs [] hlen ?_ hpw
  intro hv _ q x hq
  rw [lookupPath_nil_dict] at hq
  cases hq

/-- C8, witness for the amended theorem at concrete collision-free
input. -/
theorem flatten_total_amended_witness :
    ∃ d, flattenRow ["t.u", "t.v"] ["1", ""] = some d :=
  flatten_total_amended ["t.u", "t.v"] ["1", ""] (by decide) (by decide)
